import Mathlib

/-!
Verification of the backupTool repository (src/backupTool.js).

The tool is a Node.js script orchestrating git and the GitHub CLI.  We give a
shallow embedding of the parts of the script that the claims concern:

* the sync classifier `getGitStatus` (source lines 121-169), modelled as a pure
  function of an environment record `GitEnv` holding the results of the
  external commands the function runs (a `none` result models a command that
  exits non-zero, which in the source raises and lands in the catch block);
* the status reporter `displaySyncStatus` (lines 171-207) and the operation
  handlers, modelled as functions returning the list of state-changing git
  commands they issue (an `GitAction` trace) together with the resulting commit
  log where relevant;
* the author-partition predicate and the history rewrite operation
  `opCleanOldUserCommits` (lines 865-955) over parsed commit records;
* the `.gitignore` updater `updateProjectGitignore` (lines 262-326) as a pure
  function from optional file content to file content;
* `readConfig`/`updateConfig` (lines 74-101), together with an executable
  model of the JavaScript builtins `JSON.stringify(-, null, 2)` and
  `JSON.parse` that those two functions delegate to.

JavaScript string methods (`includes`, `trim`, `toLowerCase`, `split`,
`endsWith`, `startsWith`, `slice`) are modelled by executable functions on
`List Char` defined below, since the embedding must mirror the ECMAScript
semantics of those methods, not Lean's string library.
-/

/-- Model of the JavaScript `String.prototype.includes`: `sub` occurs
contiguously inside `s` (case-sensitive). -/
def jsIncludes (s sub : String) : Bool := decide (sub.data <:+: s.data)

/-- Model of the JavaScript `String.prototype.startsWith`. -/
def jsStartsWith (s p : String) : Bool := decide (p.data <+: s.data)

/-- Model of the JavaScript `String.prototype.endsWith`. -/
def jsEndsWith (s p : String) : Bool := decide (p.data <:+ s.data)

/-- Whitespace characters recognised by the model of `trim`. -/
def isJsWsChar (c : Char) : Bool := (c == ' ') || (c == '\t') || (c == '\n') || (c == '\r')

/-- Model of the JavaScript `String.prototype.trim` on character lists. -/
def jsTrimL (l : List Char) : List Char :=
  ((l.dropWhile isJsWsChar).reverse.dropWhile isJsWsChar).reverse

/-- Model of the JavaScript `String.prototype.trim`. -/
def jsTrim (s : String) : String := String.mk (jsTrimL s.data)

/-- ASCII lower-casing of one character, as `String.prototype.toLowerCase`
performs on the ASCII range (the only range the script compares against). -/
def jsToLowerChar (c : Char) : Char :=
  if 65 ≤ c.toNat ∧ c.toNat ≤ 90 then Char.ofNat (c.toNat + 32) else c

/-- Model of the JavaScript `String.prototype.toLowerCase`. -/
def jsToLower (s : String) : String := String.mk (s.data.map jsToLowerChar)

/-- Model of `s.slice(0, -1)`: drop the last character. -/
def jsDropLast (s : String) : String := String.mk s.data.dropLast

/-! ## Sync classifier (`getGitStatus`, src/backupTool.js lines 121-169) -/

/-- The status record built by `getGitStatus` (source lines 123-130). The
`sync` field is the string the source stores there. -/
structure GitStatusRec where
  hasChanges : Bool
  isRepo : Bool
  sync : String
  localHash : String
  remoteHash : String
  baseHash : String
deriving Repr, DecidableEq

/-- Results of the external commands `getGitStatus` runs, in program order.
`none` models a command exiting non-zero (which `runCommand` turns into a
raised error, caught at line 161); `some out` models success with trimmed
output `out`.  `remoteUpdateOk` is `git remote update`, whose output is not
used. -/
structure GitEnv where
  isRepo : Bool
  statusPorcelain : Option String
  remoteUpdateOk : Bool
  localHashRes : Option String
  lsRemoteRes : Option String
  remoteHashRes : Option String
  baseHashRes : Option String
deriving Repr, DecidableEq

/-- Shallow embedding of `getGitStatus` (source lines 121-169).  Fields are
assigned in program order, so on a failure the fields already assigned keep
their values and `sync` becomes `"error"`; the initial record (line 123) has
`sync = "unknown"`, which is returned unchanged when the directory is not a
git repository (line 132). -/
def getGitStatus (env : GitEnv) : GitStatusRec :=
  let status : GitStatusRec :=
    { hasChanges := false, isRepo := env.isRepo, sync := "unknown",
      localHash := "", remoteHash := "", baseHash := "" }
  if env.isRepo = false then status
  else
    match env.statusPorcelain with
    | none => { status with sync := "error" }
    | some out =>
      let st1 := { status with hasChanges := decide (0 < out.data.length) }
      if env.remoteUpdateOk = false then { st1 with sync := "error" }
      else
        match env.localHashRes with
        | none => { st1 with sync := "error" }
        | some lh =>
          let st2 := { st1 with localHash := lh }
          match env.lsRemoteRes with
          | none => { st2 with sync := "error" }
          | some ls =>
            if ls = "" then { st2 with sync := "no_remote" }
            else
              match env.remoteHashRes with
              | none => { st2 with sync := "error" }
              | some rh =>
                let st3 := { st2 with remoteHash := rh }
                match env.baseHashRes with
                | none => { st3 with sync := "error" }
                | some bh =>
                  let st4 := { st3 with baseHash := bh }
                  if lh = rh then { st4 with sync := "uptodate" }
                  else if lh = bh then { st4 with sync := "behind" }
                  else if rh = bh then { st4 with sync := "ahead" }
                  else { st4 with sync := "diverged" }

/-- The six sync states named by the specification. -/
def syncStates : List String :=
  ["uptodate", "behind", "ahead", "diverged", "no_remote", "error"]

/-- C1: the sync classifier in `getGitStatus` is a fixed decision table over
the (local, remote, base) hash triple.  If the remote branch does not exist
(empty `git ls-remote` output) the result is `no_remote`; otherwise the
comparisons `local = remote` (uptodate), `local = base` (behind),
`remote = base` (ahead) are applied in exactly this order with `diverged` as
the fall-through; the `uptodate` clause holds for every base hash, so
`local = remote = base` yields `uptodate`; and a failure of any command that
actually runs yields `error`. -/
theorem getGitStatus_decision_table
    (out lh ls rh bh : String) (po lo lso ro bo : Option String) (ru : Bool) :
    ((getGitStatus ⟨true, some out, true, some lh, some "", ro, bo⟩).sync = "no_remote")
    ∧ (ls ≠ "" →
        ((lh = rh →
            (getGitStatus ⟨true, some out, true, some lh, some ls, some rh, some bh⟩).sync
              = "uptodate")
        ∧ (lh ≠ rh → lh = bh →
            (getGitStatus ⟨true, some out, true, some lh, some ls, some rh, some bh⟩).sync
              = "behind")
        ∧ (lh ≠ rh → lh ≠ bh → rh = bh →
            (getGitStatus ⟨true, some out, true, some lh, some ls, some rh, some bh⟩).sync
              = "ahead")
        ∧ (lh ≠ rh → lh ≠ bh → rh ≠ bh →
            (getGitStatus ⟨true, some out, true, some lh, some ls, some rh, some bh⟩).sync
              = "diverged")))
    ∧ ((getGitStatus ⟨true, none, ru, lo, lso, ro, bo⟩).sync = "error")
    ∧ ((getGitStatus ⟨true, po, false, lo, lso, ro, bo⟩).sync = "error")
    ∧ ((getGitStatus ⟨true, some out, true, none, lso, ro, bo⟩).sync = "error")
    ∧ ((getGitStatus ⟨true, some out, true, some lh, none, ro, bo⟩).sync = "error")
    ∧ (ls ≠ "" →
        (getGitStatus ⟨true, some out, true, some lh, some ls, none, bo⟩).sync = "error")
    ∧ (ls ≠ "" →
        (getGitStatus ⟨true, some out, true, some lh, some ls, some rh, none⟩).sync
          = "error") := by
  refine ⟨?_, fun hls => ⟨?_, ?_, ?_, ?_⟩, ?_, ?_, ?_, ?_, fun hls => ?_, fun hls => ?_⟩
  · simp [getGitStatus]
  · intro h1; simp [getGitStatus, hls, h1]
  · intro h1 h2; subst h2; simp [getGitStatus, hls, h1]
  · intro h1 h2 h3; subst h3; simp [getGitStatus, hls, h1]
  · intro h1 h2 h3; simp [getGitStatus, hls, h1, h2, h3]
  · simp [getGitStatus]
  · cases po <;> simp [getGitStatus]
  · simp [getGitStatus]
  · simp [getGitStatus]
  · simp [getGitStatus, hls]
  · simp [getGitStatus, hls]

/-- Witness for C1: a concrete environment whose hashes satisfy
`local ≠ remote`, `local ≠ base`, `remote = base`, classified `ahead`. -/
theorem getGitStatus_decision_table_witness :
    (getGitStatus ⟨true, some "", true, some "a", some "refline", some "b", some "b"⟩).sync
      = "ahead" :=
  ((getGitStatus_decision_table "" "a" "refline" "b" "b" none none none none none
      true).2.1 (by decide)).2.2.1 (by decide) (by decide) rfl

/-- C2 counterexample: on the path where the directory is not a git
repository, `getGitStatus` returns the seventh value `"unknown"`, which is
not one of the six states the claim says are exhaustive over all paths. -/
theorem getGitStatus_unknown_counterexample :
    (getGitStatus ⟨false, none, false, none, none, none, none⟩).sync = "unknown"
    ∧ "unknown" ∉ syncStates := by
  constructor
  · rfl
  · decide

/-- C2 (amended): on every path of `getGitStatus` the `sync` field of the
returned status is exactly one of the six defined values or the initial
`"unknown"`; within a git repository it is always one of the six (mutually
exclusive, being distinct string literals); on the not-a-repository path it
is always `"unknown"`. -/
theorem getGitStatus_sync_partition (env : GitEnv) :
    ((getGitStatus env).sync ∈ syncStates ∨ (getGitStatus env).sync = "unknown")
    ∧ (env.isRepo = true → (getGitStatus env).sync ∈ syncStates)
    ∧ (env.isRepo = false → (getGitStatus env).sync = "unknown") := by
  obtain ⟨ir, po, ru, lo, lso, ro, bo⟩ := env
  have hmain : ir = true → (getGitStatus ⟨true, po, ru, lo, lso, ro, bo⟩).sync ∈ syncStates := by
    intro _
    cases po with
    | none => simp [getGitStatus, syncStates]
    | some out =>
      cases ru
      · simp [getGitStatus, syncStates]
      · cases lo with
        | none => simp [getGitStatus, syncStates]
        | some lh =>
          cases lso with
          | none => simp [getGitStatus, syncStates]
          | some ls =>
            cases ro with
            | none =>
              simp only [getGitStatus]
              split_ifs <;> simp_all [syncStates]
            | some rh =>
              cases bo with
              | none =>
                simp only [getGitStatus]
                split_ifs <;> simp_all [syncStates]
              | some bh =>
                simp only [getGitStatus]
                split_ifs <;> simp_all [syncStates]
  cases ir with
  | false => exact ⟨Or.inr rfl, fun h => by simp at h, fun _ => rfl⟩
  | true => exact ⟨Or.inl (hmain rfl), fun _ => hmain rfl, fun h => by simp at h⟩

/-- Witness for C2's amended theorem: a concrete in-repository environment
whose status lands in the six-value enumeration. -/
theorem getGitStatus_sync_partition_witness :
    (getGitStatus ⟨true, none, true, none, none, none, none⟩).sync ∈ syncStates :=
  (getGitStatus_sync_partition ⟨true, none, true, none, none, none, none⟩).2.1 rfl

/-! ## Commit records and the history rewrite operations
(src/backupTool.js lines 865-1014) -/

/-- A commit record as parsed from `git log --pretty=format:"%H|%an|%ae|%s"`
(source line 891). -/
structure CommitRec where
  hash : String
  authorName : String
  authorEmail : String
  subject : String
deriving Repr, DecidableEq

/-- The author-partition predicate of `opCleanOldUserCommits` (source lines
892-894): a commit belongs to the configured user when the author name equals
the username, the author email contains it, or the author email is the
GitHub noreply address of the username. -/
def isCurrentUser (currentUser : String) (c : CommitRec) : Bool :=
  (c.authorName == currentUser) || jsIncludes c.authorEmail currentUser ||
    (c.authorEmail == currentUser ++ "@users.noreply.github.com")

/-- State-changing git commands and sync reports issued by the operation
handlers.  Read-only commands (`git log`, `git status`, `rev-parse`,
`ls-remote`) are not recorded: a trace lists every state-changing step. -/
inductive GitAction where
  | gitCheckoutOrphan
  | gitAddAll
  | gitCommit (msg : String)
  | gitBranchDelete (b : String)
  | gitBranchRename (b : String)
  | gitResetHard (h : String)
  | gitPush (b : String)
  | gitPushUpstream (b : String)
  | gitForcePush (b : String)
  | reportSync (s : String)
deriving Repr, DecidableEq

/-- Effect of `git reset --hard <hash>` on a newest-first commit log: the log
becomes the suffix starting at the first commit carrying that hash. -/
def resetHard (log : List CommitRec) (h : String) : List CommitRec :=
  log.dropWhile (fun c => !(c.hash == h))

/-- Shallow embedding of `opCleanOldUserCommits` (source lines 865-955) as a
function from the parsed newest-first commit log and the interactive answers
to the resulting commit log and the trace of state-changing git commands.
`gName`/`gEmail` are the git identity that `git commit` stamps on the fresh
orphan commit, and `newHash` its hash; `hasConfig` models a readable config
with a non-empty `githubUsername` (line 869), `branchOk` a successful
`getCurrentGitBranch` (line 875). -/
def opCleanOldUserCommits (currentUser gName gEmail newHash branch : String)
    (log : List CommitRec) (confirmAns pushAns : String) (hasConfig branchOk : Bool) :
    List CommitRec × List GitAction :=
  if hasConfig = false then (log, [])
  else if branchOk = false then (log, [])
  else if log = [] then (log, [])
  else
    let currentUserCommits := log.filter (fun c => isCurrentUser currentUser c)
    let oldUserCommits := log.filter (fun c => !(isCurrentUser currentUser c))
    if oldUserCommits = [] then (log, [])
    else if jsToLower confirmAns ≠ "y" then (log, [])
    else
      let pushTrace := if jsToLower pushAns = "y" then [GitAction.gitForcePush branch] else []
      if h : currentUserCommits = [] then
        let freshCommit : CommitRec :=
          ⟨newHash, gName, gEmail, "Clean repository - Initial commit by " ++ currentUser⟩
        ([freshCommit],
          [GitAction.gitCheckoutOrphan, GitAction.gitAddAll, GitAction.gitCommit freshCommit.subject,
            GitAction.gitBranchDelete branch, GitAction.gitBranchRename branch] ++ pushTrace)
      else
        let firstCurrentUserCommit := currentUserCommits.getLast h
        (resetHard log firstCurrentUserCommit.hash,
          [GitAction.gitResetHard firstCurrentUserCommit.hash] ++ pushTrace)

/-- Shallow embedding of `opCleanAllCommits` (source lines 957-1014) as the
trace of state-changing git commands it issues. -/
def opCleanAllCommits (currentUser branch : String) (confirmAns pushAns : String)
    (hasConfig branchOk : Bool) : List GitAction :=
  if hasConfig = false then []
  else if branchOk = false then []
  else if jsToLower confirmAns ≠ "y" then []
  else
    [GitAction.gitCheckoutOrphan, GitAction.gitAddAll,
      GitAction.gitCommit ("Clean repository - Initial commit by " ++ currentUser),
      GitAction.gitBranchDelete branch, GitAction.gitBranchRename branch] ++
      (if jsToLower pushAns = "y" then [GitAction.gitForcePush branch] else [])

/-- Shallow embedding of `displaySyncStatus` (source lines 171-207): it always
reports the sync state, and in the `ahead` and `no_remote` cases it also
pushes (lines 184 and 196). -/
def displaySyncStatusActions (st : GitStatusRec) (branch : String) : List GitAction :=
  GitAction.reportSync st.sync ::
    (if st.sync = "ahead" then [GitAction.gitPush branch]
     else if st.sync = "no_remote" then [GitAction.gitPushUpstream branch]
     else [])

/-- Trace of `commitAndPush` (source lines 209-228). -/
def commitAndPushActions (msg branch : String) : List GitAction :=
  [GitAction.gitAddAll, GitAction.gitCommit msg, GitAction.gitPush branch]

/-- Shallow embedding of `checkRemoteSync` (source lines 832-845, menu
option 3) as its trace. -/
def checkRemoteSync (branchOk : Bool) (env : GitEnv) (branch : String) : List GitAction :=
  if branchOk = false then []
  else
    let st := getGitStatus env
    if st.isRepo = false then [] else displaySyncStatusActions st branch

/-- Shallow embedding of `opQuickBackup` (source lines 722-746) as its
trace; `msg` is the generated timestamp commit message. -/
def opQuickBackup (hasConfig branchOk : Bool) (env : GitEnv) (branch msg : String) :
    List GitAction :=
  if hasConfig = false then []
  else if branchOk = false then []
  else
    let st := getGitStatus env
    if st.isRepo = false then []
    else if st.hasChanges = false then displaySyncStatusActions st branch
    else commitAndPushActions msg branch

/-- Shallow embedding of `opCommitWithMessage` (source lines 748-783) as its
trace.  `promptAns` is the answer to the commit-message prompt (asked only
when the supplied message trims to empty; `askQuestion` trims it), and
`emptyAns` the answer to the empty-commit prompt. -/
def opCommitWithMessage (hasConfig branchOk : Bool)
    (customMessage promptAns emptyAns : String) (env : GitEnv) (branch : String) :
    List GitAction :=
  if hasConfig = false then []
  else if branchOk = false then []
  else
    let finalCommitMessage :=
      if jsTrim customMessage = "" then jsTrim promptAns else customMessage
    if jsTrim customMessage = "" ∧ jsTrim promptAns = "" then []
    else
      let st := getGitStatus env
      if st.isRepo = false then []
      else if st.hasChanges = false then
        if jsStartsWith (jsToLower emptyAns) "y" = false then
          displaySyncStatusActions st branch
        else commitAndPushActions finalCommitMessage branch
      else commitAndPushActions finalCommitMessage branch

/-! ## Theorems about the author partition and the history rewrite -/

/-- Helper: dropping while a predicate holds skips a prefix on which it holds
everywhere. -/
theorem dropWhile_append_of_all {α : Type} (p : α → Bool) (l1 l2 : List α)
    (h : ∀ c ∈ l1, p c = true) : (l1 ++ l2).dropWhile p = l2.dropWhile p := by
  induction l1 with
  | nil => rfl
  | cons a as ih =>
    rw [List.cons_append, List.dropWhile_cons, if_pos (h a (by simp))]
    exact ih fun c hc => h c (by simp [hc])

/-- Helper: the last element of a filtered list splits the list into a prefix,
that element, and a suffix on which the predicate is everywhere false. -/
theorem filter_getLast_split {α : Type} (p : α → Bool) (l : List α)
    (h : l.filter p ≠ []) :
    ∃ tgt pre suf, (l.filter p).getLast? = some tgt ∧ l = pre ++ tgt :: suf
      ∧ p tgt = true ∧ ∀ c ∈ suf, p c = false := by
  induction l using List.reverseRecOn with
  | nil => simp at h
  | append_singleton xs a ih =>
    cases hpa : p a with
    | true =>
      refine ⟨a, xs, [], ?_, by simp, hpa, by simp⟩
      rw [List.filter_append]
      simp [hpa, List.getLast?_concat]
    | false =>
      have hf : (xs ++ [a]).filter p = xs.filter p := by
        rw [List.filter_append]; simp [hpa]
      rw [hf] at h ⊢
      obtain ⟨tgt, pre, suf, h1, h2, h3, h4⟩ := ih h
      refine ⟨tgt, pre, suf ++ [a], h1, ?_, h3, ?_⟩
      · rw [h2]; simp
      · intro c hc
        rcases List.mem_append.mp hc with hc | hc
        · exact h4 c hc
        · simp at hc; subst hc; exact hpa

/-- C5: the author-partition predicate classifies a parsed commit record as a
current-user commit exactly when the author name equals the configured
username (case-sensitively) or the author email contains it as a
(case-sensitive) substring; the noreply-address disjunct in the source is
subsumed by the substring disjunct.  Moreover each commit of a log lands in
exactly one of the two filtered sets the operation builds. -/
theorem isCurrentUser_partition (currentUser : String) (c : CommitRec)
    (log : List CommitRec) :
    (isCurrentUser currentUser c = true ↔
      (c.authorName = currentUser ∨ currentUser.data <:+: c.authorEmail.data))
    ∧ (c ∈ log.filter (fun c => isCurrentUser currentUser c) ↔
        c ∈ log ∧ isCurrentUser currentUser c = true)
    ∧ (c ∈ log.filter (fun c => !(isCurrentUser currentUser c)) ↔
        c ∈ log ∧ ¬ isCurrentUser currentUser c = true)
    ∧ ¬(c ∈ log.filter (fun c => isCurrentUser currentUser c)
        ∧ c ∈ log.filter (fun c => !(isCurrentUser currentUser c))) := by
  refine ⟨?_, by simp [List.mem_filter], by simp [List.mem_filter], ?_⟩
  · constructor
    · intro h
      simp only [isCurrentUser, Bool.or_eq_true, beq_iff_eq, jsIncludes,
        decide_eq_true_eq] at h
      rcases h with (h | h) | h
      · exact Or.inl h
      · exact Or.inr h
      · refine Or.inr ?_
        rw [h, String.data_append]
        exact ⟨[], "@users.noreply.github.com".data, by simp⟩
    · intro h
      simp only [isCurrentUser, Bool.or_eq_true, beq_iff_eq, jsIncludes,
        decide_eq_true_eq]
      rcases h with h | h
      · exact Or.inl (Or.inl h)
      · exact Or.inl (Or.inr h)
  · rintro ⟨h1, h2⟩
    rw [List.mem_filter] at h1 h2
    rw [h1.2] at h2
    simp at h2

/-- Witness for C5 at a concrete commit: the noreply address counts as a
current-user commit through the substring disjunct. -/
theorem isCurrentUser_partition_witness :
    isCurrentUser "bob" ⟨"h1", "Bob X", "bob@users.noreply.github.com", "s"⟩ = true :=
  (isCurrentUser_partition "bob"
      ⟨"h1", "Bob X", "bob@users.noreply.github.com", "s"⟩ []).1.mpr
    (Or.inr (by decide))

/-- C3 counterexample: a run of the clean-old-user-commits operation where no
commit belongs to the configured user `"bob"` and the user confirms.  The git
identity in effect is `alice`, so the single fresh commit the operation
creates is authored by `alice`: it is not authored as the configured user in
any sense (name differs, email does not contain the username, and the
partition predicate itself rejects it). -/
theorem opCleanOldUserCommits_author_counterexample :
    ((opCleanOldUserCommits "bob" "alice" "alice@example.com" "h2" "main"
        [⟨"h1", "alice", "alice@example.com", "m1"⟩] "y" "n" true true).1.length = 1)
    ∧ ∀ c ∈ (opCleanOldUserCommits "bob" "alice" "alice@example.com" "h2" "main"
        [⟨"h1", "alice", "alice@example.com", "m1"⟩] "y" "n" true true).1,
        c.authorName ≠ "bob" ∧ jsIncludes c.authorEmail "bob" = false
          ∧ isCurrentUser "bob" c = false := by decide

/-- C3 (amended): when no commit in a non-empty log is classified as the
configured user's and the user confirms, the operation takes the orphan-branch
path and the repository afterwards contains exactly one commit; that commit
is created by `git commit`, so it carries the active git identity (and is
therefore authored as the configured user exactly when that identity matches
the configured user, as `--init` arranges). -/
theorem opCleanOldUserCommits_orphan_single_commit
    (currentUser gName gEmail newHash branch confirmAns pushAns : String)
    (log : List CommitRec)
    (hne : log ≠ [])
    (hnone : ∀ c ∈ log, isCurrentUser currentUser c = false)
    (hconfirm : jsToLower confirmAns = "y") :
    (opCleanOldUserCommits currentUser gName gEmail newHash branch log confirmAns pushAns
        true true).1
      = [⟨newHash, gName, gEmail, "Clean repository - Initial commit by " ++ currentUser⟩]
    ∧ (opCleanOldUserCommits currentUser gName gEmail newHash branch log confirmAns pushAns
        true true).1.length = 1 := by
  have hcur : log.filter (fun c => isCurrentUser currentUser c) = [] := by
    rw [List.filter_eq_nil_iff]
    intro a ha
    simp [hnone a ha]
  have hold : log.filter (fun c => !(isCurrentUser currentUser c)) = log := by
    rw [List.filter_eq_self]
    intro a ha
    simp [hnone a ha]
  have h1 : (opCleanOldUserCommits currentUser gName gEmail newHash branch log confirmAns
      pushAns true true).1
      = [⟨newHash, gName, gEmail, "Clean repository - Initial commit by " ++ currentUser⟩] := by
    simp only [opCleanOldUserCommits, hcur, hold]
    rw [if_neg hne, if_neg (show ¬(jsToLower confirmAns ≠ "y") by simp [hconfirm])]
    simp [hne]
  exact ⟨h1, by rw [h1]; rfl⟩

/-- Witness for C3's amended theorem at a concrete log. -/
theorem opCleanOldUserCommits_orphan_single_commit_witness :
    (opCleanOldUserCommits "bob" "alice" "alice@example.com" "h2" "main"
        [⟨"h1", "alice", "alice@example.com", "m1"⟩] "Y" "n" true true).1
      = [⟨"h2", "alice", "alice@example.com", "Clean repository - Initial commit by " ++ "bob"⟩]
    ∧ (opCleanOldUserCommits "bob" "alice" "alice@example.com" "h2" "main"
        [⟨"h1", "alice", "alice@example.com", "m1"⟩] "Y" "n" true true).1.length = 1 :=
  opCleanOldUserCommits_orphan_single_commit "bob" "alice" "alice@example.com" "h2" "main"
    "Y" "n" [⟨"h1", "alice", "alice@example.com", "m1"⟩]
    (by decide) (by decide) (by decide)

/-- C4: when at least one commit belongs to the configured user, at least one
belongs to another author (so the confirmation prompt is reached) and the
user confirms, the operation hard-resets to the earliest commit of the
configured user: the log decomposes as `pre ++ tgt :: suf` with `tgt` the
user's oldest commit (`git log` lists newest first, and every commit older
than `tgt` belongs to another author), the resulting log is exactly
`tgt :: suf`, and the trace contains the hard reset to `tgt`'s hash.  All of
`pre` — every commit newer than `tgt`, whoever authored it, including the
configured user's own commits that follow an other-author commit — is
discarded. -/
theorem opCleanOldUserCommits_resets_to_earliest
    (currentUser gName gEmail newHash branch : String) (log : List CommitRec)
    (confirmAns pushAns : String)
    (hnodup : (log.map (fun c => c.hash)).Nodup)
    (hcur : log.filter (fun c => isCurrentUser currentUser c) ≠ [])
    (hold : log.filter (fun c => !(isCurrentUser currentUser c)) ≠ [])
    (hconfirm : jsToLower confirmAns = "y") :
    ∃ tgt pre suf,
      log = pre ++ tgt :: suf
      ∧ isCurrentUser currentUser tgt = true
      ∧ (∀ c ∈ suf, isCurrentUser currentUser c = false)
      ∧ (opCleanOldUserCommits currentUser gName gEmail newHash branch log confirmAns
          pushAns true true).1 = tgt :: suf
      ∧ GitAction.gitResetHard tgt.hash ∈
          (opCleanOldUserCommits currentUser gName gEmail newHash branch log confirmAns
            pushAns true true).2 := by
  obtain ⟨tgt, pre, suf, h1, h2, h3, h4⟩ :=
    filter_getLast_split (fun c => isCurrentUser currentUser c) log hcur
  have hlast : (log.filter (fun c => isCurrentUser currentUser c)).getLast hcur = tgt := by
    have := List.getLast?_eq_getLast (log.filter (fun c => isCurrentUser currentUser c)) hcur
    rw [this] at h1
    exact Option.some_injective _ h1
  have hne : log ≠ [] := fun h => hcur (by simp [h])
  -- every commit in `pre` has a hash different from `tgt.hash`
  have hpre : ∀ c ∈ pre, (!(c.hash == tgt.hash)) = true := by
    intro c hc
    have hmap : (log.map fun c => c.hash)
        = (pre.map fun c => c.hash) ++ tgt.hash :: (suf.map fun c => c.hash) := by
      rw [h2]; simp
    rw [hmap] at hnodup
    have hdisj := List.disjoint_of_nodup_append hnodup
    have : c.hash ≠ tgt.hash := by
      intro hEq
      exact hdisj (List.mem_map_of_mem _ hc) (by rw [hEq]; exact List.mem_cons_self _ _)
    simpa using this
  have hreset : resetHard log tgt.hash = tgt :: suf := by
    rw [resetHard, h2, dropWhile_append_of_all _ pre _ hpre, List.dropWhile_cons,
      if_neg (by simp)]
  refine ⟨tgt, pre, suf, h2, h3, h4, ?_, ?_⟩ <;>
  · simp only [opCleanOldUserCommits]
    rw [if_neg (by simp), if_neg (by simp), if_neg hne, if_neg hold,
      if_neg (show ¬(jsToLower confirmAns ≠ "y") by simp [hconfirm]), dif_neg hcur]
    simp [hlast, hreset]

/-- Witness for C4: a two-commit log, newest first, where only the older
commit belongs to the configured user. -/
theorem opCleanOldUserCommits_resets_to_earliest_witness :
    ∃ tgt pre suf,
      ([⟨"h1", "alice", "alice@example.com", "m1"⟩,
        ⟨"h2", "bob", "bob@example.com", "m2"⟩] : List CommitRec) = pre ++ tgt :: suf
      ∧ isCurrentUser "bob" tgt = true
      ∧ (∀ c ∈ suf, isCurrentUser "bob" c = false)
      ∧ (opCleanOldUserCommits "bob" "bob" "bob@example.com" "h3" "main"
          [⟨"h1", "alice", "alice@example.com", "m1"⟩,
           ⟨"h2", "bob", "bob@example.com", "m2"⟩] "Y" "n" true true).1 = tgt :: suf
      ∧ GitAction.gitResetHard tgt.hash ∈
          (opCleanOldUserCommits "bob" "bob" "bob@example.com" "h3" "main"
            [⟨"h1", "alice", "alice@example.com", "m1"⟩,
             ⟨"h2", "bob", "bob@example.com", "m2"⟩] "Y" "n" true true).2 :=
  opCleanOldUserCommits_resets_to_earliest "bob" "bob" "bob@example.com" "h3" "main"
    [⟨"h1", "alice", "alice@example.com", "m1"⟩, ⟨"h2", "bob", "bob@example.com", "m2"⟩]
    "Y" "n" (by decide) (by decide) (by decide) (by decide)

/-- C9: answering anything whose lower-casing is not `"y"` at the destructive
confirmation prompt of `--clean-history` or `--clean-all` aborts cleanly: the
operation issues no state-changing git command at all (empty trace — in
particular no checkout, reset, branch deletion, commit or push) and the
commit log is unchanged. -/
theorem clean_operations_cancel_no_side_effects
    (currentUser gName gEmail newHash branch currentUser2 branch2 : String)
    (log : List CommitRec) (confirmAns pushAns confirmAns2 pushAns2 : String)
    (hasConfig branchOk hasConfig2 branchOk2 : Bool)
    (h1 : jsToLower confirmAns ≠ "y")
    (h2 : jsToLower confirmAns2 ≠ "y") :
    (opCleanOldUserCommits currentUser gName gEmail newHash branch log confirmAns pushAns
        hasConfig branchOk).2 = []
    ∧ (opCleanOldUserCommits currentUser gName gEmail newHash branch log confirmAns pushAns
        hasConfig branchOk).1 = log
    ∧ opCleanAllCommits currentUser2 branch2 confirmAns2 pushAns2 hasConfig2 branchOk2
        = [] := by
  refine ⟨?_, ?_, ?_⟩ <;>
  · simp only [opCleanOldUserCommits, opCleanAllCommits]
    split_ifs <;> simp_all

/-- Witness for C9: the literal answer `"n"` cancels both operations. -/
theorem clean_operations_cancel_no_side_effects_witness :
    (opCleanOldUserCommits "bob" "bob" "bob@example.com" "h3" "main"
        [⟨"h1", "alice", "alice@example.com", "m1"⟩] "n" "y" true true).2 = []
    ∧ (opCleanOldUserCommits "bob" "bob" "bob@example.com" "h3" "main"
        [⟨"h1", "alice", "alice@example.com", "m1"⟩] "n" "y" true true).1
        = [⟨"h1", "alice", "alice@example.com", "m1"⟩]
    ∧ opCleanAllCommits "bob" "main" "no" "y" true true = [] :=
  clean_operations_cancel_no_side_effects "bob" "bob" "bob@example.com" "h3" "main"
    "bob" "main" [⟨"h1", "alice", "alice@example.com", "m1"⟩] "n" "y" "no" "y"
    true true true true (by decide) (by decide)

/-! ## Theorems about the commit operation and the status reporter -/

/-- C8: a `--commit` run with an empty (after trimming) supplied message, a
non-empty message entered at the prompt, no local changes, and a declined
empty-commit prompt makes no commit: the resulting trace is exactly the
sync-status report for the current branch (which is therefore emitted before
the operation returns), and contains no `git commit` for any message. -/
theorem opCommitWithMessage_decline_empty
    (customMessage promptAns emptyAns branch : String) (env : GitEnv)
    (hmsg : jsTrim customMessage = "")
    (hp : jsTrim promptAns ≠ "")
    (hrepo : (getGitStatus env).isRepo = true)
    (hch : (getGitStatus env).hasChanges = false)
    (hdecl : jsStartsWith (jsToLower emptyAns) "y" = false) :
    opCommitWithMessage true true customMessage promptAns emptyAns env branch
      = displaySyncStatusActions (getGitStatus env) branch
    ∧ (∀ m, GitAction.gitCommit m
        ∉ opCommitWithMessage true true customMessage promptAns emptyAns env branch)
    ∧ GitAction.reportSync (getGitStatus env).sync
        ∈ opCommitWithMessage true true customMessage promptAns emptyAns env branch := by
  have htr : opCommitWithMessage true true customMessage promptAns emptyAns env branch
      = displaySyncStatusActions (getGitStatus env) branch := by
    simp [opCommitWithMessage, hmsg, hp, hrepo, hch, hdecl]
  refine ⟨htr, ?_, ?_⟩
  · intro m
    rw [htr]
    simp only [displaySyncStatusActions]
    split_ifs <;> simp
  · rw [htr]
    simp [displaySyncStatusActions]

/-- Witness for C8 at a concrete environment (clean tree, remote absent). -/
theorem opCommitWithMessage_decline_empty_witness :
    opCommitWithMessage true true "" "fix stuff" "n"
        ⟨true, some "", true, some "a", some "", none, none⟩ "main"
      = displaySyncStatusActions
          (getGitStatus ⟨true, some "", true, some "a", some "", none, none⟩) "main"
    ∧ (∀ m, GitAction.gitCommit m
        ∉ opCommitWithMessage true true "" "fix stuff" "n"
            ⟨true, some "", true, some "a", some "", none, none⟩ "main")
    ∧ GitAction.reportSync
          (getGitStatus ⟨true, some "", true, some "a", some "", none, none⟩).sync
        ∈ opCommitWithMessage true true "" "fix stuff" "n"
            ⟨true, some "", true, some "a", some "", none, none⟩ "main" :=
  opCommitWithMessage_decline_empty "" "fix stuff" "n" "main"
    ⟨true, some "", true, some "a", some "", none, none⟩
    (by decide) (by decide) (by decide) (by decide) (by decide)

/-- C10: `displaySyncStatus` is not read-only.  For every status whose sync
field is `"ahead"` its trace contains `git push origin <branch>`, and for
every status whose sync field is `"no_remote"` it contains
`git push -u origin <branch>`; consequently the check-remote-sync operation
(menu option 3) and the no-changes path of `--qbackup` push to the remote as
a side effect of reporting status. -/
theorem displaySyncStatus_pushes
    (st st2 : GitStatusRec) (branch msg : String) (env env2 : GitEnv) :
    (st.sync = "ahead" → GitAction.gitPush branch ∈ displaySyncStatusActions st branch)
    ∧ (st2.sync = "no_remote" →
        GitAction.gitPushUpstream branch ∈ displaySyncStatusActions st2 branch)
    ∧ ((getGitStatus env).sync = "ahead" → (getGitStatus env).isRepo = true →
        GitAction.gitPush branch ∈ checkRemoteSync true env branch)
    ∧ ((getGitStatus env2).sync = "no_remote" → (getGitStatus env2).isRepo = true →
        (getGitStatus env2).hasChanges = false →
        GitAction.gitPushUpstream branch ∈ opQuickBackup true true env2 branch msg) := by
  refine ⟨?_, ?_, ?_, ?_⟩
  · intro h; simp [displaySyncStatusActions, h]
  · intro h; simp [displaySyncStatusActions, h]
  · intro h hr
    simp [checkRemoteSync, hr, displaySyncStatusActions, h]
  · intro h hr hch
    simp [opQuickBackup, hr, hch, displaySyncStatusActions, h]

/-- Witness for C10: concrete `ahead` and `no_remote` statuses and concrete
environments producing them through `checkRemoteSync` and `--qbackup`. -/
theorem displaySyncStatus_pushes_witness :
    (GitAction.gitPush "main"
        ∈ displaySyncStatusActions ⟨false, true, "ahead", "a", "b", "b"⟩ "main")
    ∧ (GitAction.gitPushUpstream "main"
        ∈ displaySyncStatusActions ⟨false, true, "no_remote", "a", "", ""⟩ "main")
    ∧ (GitAction.gitPush "main" ∈ checkRemoteSync true
        ⟨true, some "", true, some "a", some "x", some "b", some "b"⟩ "main")
    ∧ (GitAction.gitPushUpstream "main" ∈ opQuickBackup true true
        ⟨true, some "", true, some "a", some "", none, none⟩ "main" "msg") := by
  have h := displaySyncStatus_pushes ⟨false, true, "ahead", "a", "b", "b"⟩
    ⟨false, true, "no_remote", "a", "", ""⟩ "main" "msg"
    ⟨true, some "", true, some "a", some "x", some "b", some "b"⟩
    ⟨true, some "", true, some "a", some "", none, none⟩
  exact ⟨h.1 rfl, h.2.1 rfl, h.2.2.1 (by decide) (by decide),
    h.2.2.2 (by decide) (by decide) (by decide)⟩

/-! ## The `.gitignore` updater (`updateProjectGitignore`, source lines 262-326) -/

/-- The tool directory name (source line 7). -/
def TOOL_DIR : String := "backupTool"

/-- The block of rules the tool appends (source line 264). -/
def toolGitignoreContent : String :=
  "\n# " ++ TOOL_DIR ++ "\n/" ++ TOOL_DIR ++ "/\n.env*\n*.key\n*.pem\nconfig.local.*\n"

/-- The marker comment guarding idempotence (source line 265). -/
def toolGitignoreMarker : String := "# " ++ TOOL_DIR

/-- Model of the JavaScript `String.prototype.split` with a one-character
separator, on character lists. -/
def jsSplitChar (sep : Char) : List Char → List (List Char)
  | [] => [[]]
  | c :: cs =>
    match jsSplitChar sep cs with
    | [] => [[]]
    | h :: t => if c = sep then [] :: h :: t else (c :: h) :: t

/-- Model of the JavaScript `String.prototype.split` with a one-character
separator. -/
def jsSplit (s : String) (sep : Char) : List String := (jsSplitChar sep s.data).map String.mk

/-- Model of the JavaScript `Array.prototype.join`. -/
def joinWith (sep : String) : List String → String
  | [] => ""
  | [x] => x
  | x :: y :: xs => x ++ sep ++ joinWith sep (y :: xs)

/-- The filter of source lines 294-299: keep a rule when it is non-blank and
the `.gitignore` content does not already contain it (directory rules are
checked without their trailing slash). -/
def gitignoreRuleFilter (gitignoreContent rule : String) : Bool :=
  if jsTrim rule = "" then false
  else !(jsIncludes gitignoreContent
    (if jsEndsWith (jsTrim rule) "/" then jsDropLast (jsTrim rule) else jsTrim rule))

/-- The `rulesToAdd` array of source lines 294-299. -/
def rulesToAdd (gitignoreContent : String) : List String :=
  (jsSplit toolGitignoreContent '\n').filter (gitignoreRuleFilter gitignoreContent)

/-- The `contentToAppend` string of source lines 301-308. -/
def contentToAppendFor (gitignoreContent : String) : String :=
  if 0 < (rulesToAdd gitignoreContent).length then
    (if jsIncludes gitignoreContent toolGitignoreMarker then "\n"
     else "\n" ++ toolGitignoreMarker ++ "\n# " ++ TOOL_DIR ++ " rules\n")
      ++ joinWith "\n" (rulesToAdd gitignoreContent) ++ "\n"
  else if jsIncludes gitignoreContent ("/" ++ TOOL_DIR ++ "/") = false then
    "\n" ++ toolGitignoreMarker ++ "\n/" ++ TOOL_DIR ++ "/\n"
  else ""

/-- The `prefix` string of source lines 312-317, computed before appending. -/
def appendPrefixFor (gitignoreContent contentToAppend : String) : String :=
  if 0 < gitignoreContent.data.length ∧ jsEndsWith gitignoreContent "\n" = false then "\n"
  else if 0 < gitignoreContent.data.length ∧ jsEndsWith gitignoreContent "\n" = true
      ∧ jsEndsWith gitignoreContent "\n\n" = false
      ∧ jsStartsWith contentToAppend "\n" = false then "\n"
  else ""

/-- Shallow embedding of `updateProjectGitignore` (source lines 262-326) as a
pure function on the optional `.gitignore` content (`none` models an absent
file).  Filesystem read/write failures, which leave the file untouched, are
outside the model. -/
def updateProjectGitignore : Option String → Option String
  | none => some ("# Generated by " ++ TOOL_DIR ++ "\n" ++ toolGitignoreContent)
  | some gitignoreContent =>
    if jsIncludes gitignoreContent toolGitignoreMarker then some gitignoreContent
    else if contentToAppendFor gitignoreContent ≠ "" then
      some (gitignoreContent
        ++ appendPrefixFor gitignoreContent (contentToAppendFor gitignoreContent)
        ++ contentToAppendFor gitignoreContent)
    else some gitignoreContent

/-- Helper: `jsIncludes` holds whenever the needle is an infix of the
haystack. -/
theorem jsIncludes_of_infix (s m : String) (h : m.data <:+: s.data) :
    jsIncludes s m = true := by simp [jsIncludes, h]

/-- Helper: splitting the rule block on newlines yields its literal lines. -/
theorem jsSplit_toolGitignoreContent :
    jsSplit toolGitignoreContent '\n'
      = ["", "# backupTool", "/backupTool/", ".env*", "*.key", "*.pem",
         "config.local.*", ""] := by decide

/-- Helper: when the content lacks the marker, the marker line itself
survives the rule filter, so `rulesToAdd` is non-empty. -/
theorem marker_mem_rulesToAdd (c : String)
    (hmm : jsIncludes c toolGitignoreMarker = false) :
    toolGitignoreMarker ∈ rulesToAdd c := by
  have hmarklit : toolGitignoreMarker = "# backupTool" := by decide
  rw [hmarklit] at hmm ⊢
  have e1 : jsTrim "# backupTool" = "# backupTool" := by decide
  have e2 : jsEndsWith "# backupTool" "/" = false := by decide
  have hfilt : gitignoreRuleFilter c "# backupTool" = true := by
    simp [gitignoreRuleFilter, e1, e2, hmm]
  rw [rulesToAdd, jsSplit_toolGitignoreContent]
  exact List.mem_filter.mpr ⟨by simp, hfilt⟩

/-- Helper: when the content lacks the marker, the appended block starts with
a newline followed by the marker. -/
theorem contentToAppendFor_no_marker (c : String)
    (hmm : jsIncludes c toolGitignoreMarker = false) :
    ∃ X, (contentToAppendFor c).data = '\n' :: (toolGitignoreMarker.data ++ X) := by
  have hlen : 0 < (rulesToAdd c).length :=
    List.length_pos.mpr (List.ne_nil_of_mem (marker_mem_rulesToAdd c hmm))
  refine ⟨("\n# " ++ TOOL_DIR ++ " rules\n" ++ joinWith "\n" (rulesToAdd c) ++ "\n").data, ?_⟩
  rw [contentToAppendFor, if_pos hlen, if_neg (by simp [hmm])]
  simp [String.data_append, List.append_assoc]

/-- C6: `updateProjectGitignore` is idempotent: for every initial
`.gitignore` content, including an absent file, the second application
changes nothing — after one application the content contains the
`# backupTool` marker comment, which guards the update. -/
theorem updateProjectGitignore_idempotent (g : Option String) :
    updateProjectGitignore (updateProjectGitignore g) = updateProjectGitignore g := by
  cases g with
  | none =>
    have h : jsIncludes ("# Generated by " ++ TOOL_DIR ++ "\n" ++ toolGitignoreContent)
        toolGitignoreMarker = true := by decide
    simp [updateProjectGitignore, h]
  | some c =>
    by_cases hm : jsIncludes c toolGitignoreMarker = true
    · simp [updateProjectGitignore, hm]
    · have hmm : jsIncludes c toolGitignoreMarker = false := by
        simpa using hm
      obtain ⟨X, hX⟩ := contentToAppendFor_no_marker c hmm
      have hne : contentToAppendFor c ≠ "" := by
        intro h0
        have := congrArg String.data h0
        rw [hX] at this
        simp at this
      have hres : updateProjectGitignore (some c)
          = some (c ++ appendPrefixFor c (contentToAppendFor c) ++ contentToAppendFor c) := by
        simp [updateProjectGitignore, hmm, hne]
      have hmark : jsIncludes
          (c ++ appendPrefixFor c (contentToAppendFor c) ++ contentToAppendFor c)
          toolGitignoreMarker = true := by
        apply jsIncludes_of_infix
        simp only [String.data_append]
        rw [hX]
        refine ⟨c.data ++ (appendPrefixFor c (contentToAppendFor c)).data ++ ['\n'],
          X, ?_⟩
        simp [List.append_assoc]
      rw [hres]
      simp [updateProjectGitignore, hmark]

/-! ## Config persistence (`readConfig`/`updateConfig`, source lines 74-101)

`updateConfig` writes `JSON.stringify(newConfigData, null, 2)` to the config
file and `readConfig` reads it back through `JSON.parse`.  The two builtins
are modelled executably below: `stringifyL` reproduces the two-space
pretty-printing of `JSON.stringify(-, null, 2)` (including its string
escaping) and `parseVal` is a model of `JSON.parse` (numbers are modelled as
naturals, the only numeric shape the config contains). -/

/-- JSON values.  JavaScript numbers are modelled as naturals. -/
inductive Json where
  | null
  | bool (b : Bool)
  | num (n : Nat)
  | str (s : String)
  | arr (xs : List Json)
  | obj (fields : List (String × Json))

/-- Lower-case hexadecimal digit, as `JSON.stringify` emits. -/
def hexDigitChar (n : Nat) : Char :=
  match n with
  | 0 => '0' | 1 => '1' | 2 => '2' | 3 => '3' | 4 => '4'
  | 5 => '5' | 6 => '6' | 7 => '7' | 8 => '8' | 9 => '9'
  | 10 => 'a' | 11 => 'b' | 12 => 'c' | 13 => 'd' | 14 => 'e' | 15 => 'f'
  | _ => '0'

/-- Decimal digits of a natural number, most significant first. -/
def natDigits (n : Nat) : List Char :=
  if _h : n < 10 then [hexDigitChar n]
  else natDigits (n / 10) ++ [hexDigitChar (n % 10)]
decreasing_by exact Nat.div_lt_self (by omega) (by omega)

/-- Escape of one character inside a JSON string literal, as
`JSON.stringify` performs it. -/
def escCharL (c : Char) : List Char :=
  if c = '"' then ['\\', '"']
  else if c = '\\' then ['\\', '\\']
  else if c = '\n' then ['\\', 'n']
  else if c = '\r' then ['\\', 'r']
  else if c = '\t' then ['\\', 't']
  else if c.toNat = 8 then ['\\', 'b']
  else if c.toNat = 12 then ['\\', 'f']
  else if c.toNat < 32 then
    ['\\', 'u', '0', '0', hexDigitChar (c.toNat / 16), hexDigitChar (c.toNat % 16)]
  else [c]

/-- Escape of a whole character sequence. -/
def escapeL : List Char → List Char
  | [] => []
  | c :: cs => escCharL c ++ escapeL cs

/-- A JSON string literal: quote, escaped content, quote. -/
def quoteL (l : List Char) : List Char := '"' :: (escapeL l ++ ['"'])

/-- Indentation. -/
def spacesL (n : Nat) : List Char := List.replicate n ' '

/-- Spelling of the `null` keyword. -/
def nullLit : List Char := ['n', 'u', 'l', 'l']

/-- Spelling of the `true` keyword. -/
def trueLit : List Char := ['t', 'r', 'u', 'e']

/-- Spelling of the `false` keyword. -/
def falseLit : List Char := ['f', 'a', 'l', 's', 'e']

mutual

/-- Model of `JSON.stringify(v, null, 2)` at nesting depth `d`, as a
character list. -/
def stringifyL (d : Nat) : Json → List Char
  | .str s => quoteL s.data
  | .num n => natDigits n
  | .bool b => if b then trueLit else falseLit
  | .null => nullLit
  | .arr [] => ['[', ']']
  | .arr (x :: xs) =>
    '[' :: (itemsEnc (d + 1) (x :: xs) ++ ('\n' :: (spacesL (2 * d) ++ [']'])))
  | .obj [] => ['{', '}']
  | .obj (m :: ms) =>
    '{' :: (membersEnc (d + 1) (m :: ms) ++ ('\n' :: (spacesL (2 * d) ++ ['}'])))

/-- Array elements: each on its own line, indented, separated by commas. -/
def itemsEnc (d : Nat) : List Json → List Char
  | [] => []
  | [x] => '\n' :: (spacesL (2 * d) ++ stringifyL d x)
  | x :: y :: xs =>
    '\n' :: (spacesL (2 * d) ++ stringifyL d x ++ (',' :: itemsEnc d (y :: xs)))

/-- Object members: each on its own line, indented, `"key": value`,
separated by commas. -/
def membersEnc (d : Nat) : List (String × Json) → List Char
  | [] => []
  | [(k, v)] => '\n' :: (spacesL (2 * d) ++ quoteL k.data ++ (':' :: ' ' :: stringifyL d v))
  | (k, v) :: m :: ms =>
    '\n' :: (spacesL (2 * d) ++ quoteL k.data ++
      (':' :: ' ' :: (stringifyL d v ++ (',' :: membersEnc d (m :: ms)))))

end

/-- JSON whitespace skipping (space, tab, line feed, carriage return — the
same set as `isJsWsChar`). -/
def skipWs : List Char → List Char
  | [] => []
  | c :: cs => if isJsWsChar c then skipWs cs else c :: cs

/-- Decimal digit test. -/
def isDigitChar (c : Char) : Bool := decide (48 ≤ c.toNat ∧ c.toNat ≤ 57)

/-- Value of a hexadecimal digit. -/
def hexVal (c : Char) : Option Nat :=
  if 48 ≤ c.toNat ∧ c.toNat ≤ 57 then some (c.toNat - 48)
  else if 97 ≤ c.toNat ∧ c.toNat ≤ 102 then some (c.toNat - 87)
  else if 65 ≤ c.toNat ∧ c.toNat ≤ 70 then some (c.toNat - 55)
  else none

/-- Body of a JSON string literal after the opening quote: unescape up to the
closing quote, returning the decoded characters and the rest of the input. -/
def parseStrAux : List Char → Option (List Char × List Char)
  | [] => none
  | c :: rest =>
    if c = '"' then some ([], rest)
    else if c = '\\' then
      match rest with
      | [] => none
      | e :: r =>
        if e = '"' then (parseStrAux r).map (fun p => ('"' :: p.1, p.2))
        else if e = '\\' then (parseStrAux r).map (fun p => ('\\' :: p.1, p.2))
        else if e = '/' then (parseStrAux r).map (fun p => ('/' :: p.1, p.2))
        else if e = 'n' then (parseStrAux r).map (fun p => ('\n' :: p.1, p.2))
        else if e = 'r' then (parseStrAux r).map (fun p => ('\r' :: p.1, p.2))
        else if e = 't' then (parseStrAux r).map (fun p => ('\t' :: p.1, p.2))
        else if e = 'b' then (parseStrAux r).map (fun p => (Char.ofNat 8 :: p.1, p.2))
        else if e = 'f' then (parseStrAux r).map (fun p => (Char.ofNat 12 :: p.1, p.2))
        else if e = 'u' then
          match r with
          | h1 :: h2 :: h3 :: h4 :: r2 =>
            match hexVal h1, hexVal h2, hexVal h3, hexVal h4 with
            | some a, some b, some c2, some d2 =>
              (parseStrAux r2).map
                (fun p => (Char.ofNat (((a * 16 + b) * 16 + c2) * 16 + d2) :: p.1, p.2))
            | _, _, _, _ => none
          | _ => none
        else none
    else (parseStrAux rest).map (fun p => (c :: p.1, p.2))

/-- Decimal value of a digit sequence. -/
def digitsToNat (l : List Char) : Nat := l.foldl (fun a c => a * 10 + (c.toNat - 48)) 0

mutual

/-- Model of `JSON.parse`: parse one value, with fuel.  Returns the value and
the unconsumed input. -/
def parseVal : Nat → List Char → Option (Json × List Char)
  | 0, _ => none
  | n + 1, cs =>
    match skipWs cs with
    | [] => none
    | c :: rest =>
      if c = '"' then
        match parseStrAux rest with
        | some (l, r) => some (.str (String.mk l), r)
        | none => none
      else if c = '[' then
        if (skipWs rest).head? = some ']' then some (.arr [], (skipWs rest).tail)
        else
          match parseItems n rest with
          | some (xs, r) => some (.arr xs, r)
          | none => none
      else if c = '{' then
        if (skipWs rest).head? = some '}' then some (.obj [], (skipWs rest).tail)
        else
          match parseMembers n rest with
          | some (ms, r) => some (.obj ms, r)
          | none => none
      else if c = 't' then
        match rest with
        | 'r' :: 'u' :: 'e' :: r => some (.bool true, r)
        | _ => none
      else if c = 'f' then
        match rest with
        | 'a' :: 'l' :: 's' :: 'e' :: r => some (.bool false, r)
        | _ => none
      else if c = 'n' then
        match rest with
        | 'u' :: 'l' :: 'l' :: r => some (.null, r)
        | _ => none
      else if isDigitChar c = true then
        some (.num (digitsToNat ((c :: rest).takeWhile isDigitChar)),
          (c :: rest).dropWhile isDigitChar)
      else none

/-- Elements of a non-empty JSON array, after the opening bracket. -/
def parseItems : Nat → List Char → Option (List Json × List Char)
  | 0, _ => none
  | n + 1, cs =>
    match parseVal n cs with
    | none => none
    | some (v, r) =>
      match skipWs r with
      | [] => none
      | c :: r2 =>
        if c = ',' then
          match parseItems n r2 with
          | some (xs, r3) => some (v :: xs, r3)
          | none => none
        else if c = ']' then some ([v], r2)
        else none

/-- Members of a non-empty JSON object, after the opening brace. -/
def parseMembers : Nat → List Char → Option (List (String × Json) × List Char)
  | 0, _ => none
  | n + 1, cs =>
    match skipWs cs with
    | [] => none
    | c :: r =>
      if c = '"' then
        match parseStrAux r with
        | none => none
        | some (kl, r2) =>
          match skipWs r2 with
          | [] => none
          | c2 :: r3 =>
            if c2 = ':' then
              match parseVal n r3 with
              | none => none
              | some (v, r4) =>
                match skipWs r4 with
                | [] => none
                | c3 :: r5 =>
                  if c3 = ',' then
                    match parseMembers n r5 with
                    | some (ms, r6) => some ((String.mk kl, v) :: ms, r6)
                    | none => none
                  else if c3 = '}' then some ([(String.mk kl, v)], r5)
                  else none
            else none
      else none

end

/-- Model of `JSON.stringify(v, null, 2)`. -/
def jsonStringify (v : Json) : String := String.mk (stringifyL 0 v)

/-- Model of `JSON.parse` (fuel is one more than the input length; any parse
consumes at least one character per recursion level). -/
def jsonParse (s : String) : Option Json :=
  match parseVal (s.data.length + 1) s.data with
  | some (v, r) => if skipWs r = [] then some v else none
  | none => none

/-- The config record persisted by the tool (spec section 3; source lines
241-249 list exactly these fields). -/
structure BackupConfig where
  projectName : String
  githubUsername : String
  backupBranch : String
  autoIgnoreFiles : List String
  maxBackupAttempts : Nat
  createdAt : String
  version : String
deriving Repr, DecidableEq

/-- The JSON object a `BackupConfig` denotes, with fields in the insertion
order the source uses. -/
def configToJson (c : BackupConfig) : Json :=
  .obj [("projectName", .str c.projectName),
        ("githubUsername", .str c.githubUsername),
        ("backupBranch", .str c.backupBranch),
        ("autoIgnoreFiles", .arr (c.autoIgnoreFiles.map .str)),
        ("maxBackupAttempts", .num c.maxBackupAttempts),
        ("createdAt", .str c.createdAt),
        ("version", .str c.version)]

/-- Shallow embedding of `readConfig` (source lines 74-86): `none` models a
missing file or a parse failure, otherwise the parsed JSON object is
returned. -/
def readConfig (file : Option String) : Option Json :=
  match file with
  | none => none
  | some raw => jsonParse raw

/-- Shallow embedding of `updateConfig` (source lines 88-101): the config
file content after writing `JSON.stringify(newConfigData, null, 2)`. -/
def updateConfig (newConfigData : Json) : Option String :=
  some (jsonStringify newConfigData)

/-! ## Correctness of the JSON model: the printer and parser are inverse -/

/-- Helper: the escape of one character is parsed back to that character. -/
theorem parseStrAux_escape (l : List Char) (rest : List Char) :
    parseStrAux (escapeL l ++ '"' :: rest) = some (l, rest) := by
  induction l with
  | nil =>
    rw [escapeL, List.nil_append, parseStrAux.eq_def]
    simp
  | cons c cs ih =>
    rw [escapeL, List.append_assoc]
    by_cases h1 : c = '"'
    · subst h1
      rw [show escCharL '"' = ['\\', '"'] from by decide, List.cons_append,
        List.cons_append, List.nil_append, parseStrAux.eq_def]
      simp [ih]
    · by_cases h2 : c = '\\'
      · subst h2
        rw [show escCharL '\\' = ['\\', '\\'] from by decide, List.cons_append,
          List.cons_append, List.nil_append, parseStrAux.eq_def]
        simp [ih]
      · by_cases h3 : c = '\n'
        · subst h3
          rw [show escCharL '\n' = ['\\', 'n'] from by decide, List.cons_append,
            List.cons_append, List.nil_append, parseStrAux.eq_def]
          simp [ih]
        · by_cases h4 : c = '\r'
          · subst h4
            rw [show escCharL '\r' = ['\\', 'r'] from by decide, List.cons_append,
              List.cons_append, List.nil_append, parseStrAux.eq_def]
            simp [ih]
          · by_cases h5 : c = '\t'
            · subst h5
              rw [show escCharL '\t' = ['\\', 't'] from by decide, List.cons_append,
                List.cons_append, List.nil_append, parseStrAux.eq_def]
              simp [ih]
            · by_cases h6 : c.toNat = 8
              · have hc : Char.ofNat 8 = c := by rw [← h6, Char.ofNat_toNat]
                rw [show escCharL c = ['\\', 'b'] from by
                    rw [escCharL, if_neg h1, if_neg h2, if_neg h3, if_neg h4, if_neg h5,
                      if_pos h6],
                  List.cons_append, List.cons_append, List.nil_append, parseStrAux.eq_def]
                simp [ih]
                exact hc
              · by_cases h7 : c.toNat = 12
                · have hc : Char.ofNat 12 = c := by rw [← h7, Char.ofNat_toNat]
                  rw [show escCharL c = ['\\', 'f'] from by
                      rw [escCharL, if_neg h1, if_neg h2, if_neg h3, if_neg h4, if_neg h5,
                        if_neg h6, if_pos h7],
                    List.cons_append, List.cons_append, List.nil_append, parseStrAux.eq_def]
                  simp [ih]
                  exact hc
                · by_cases h8 : c.toNat < 32
                  · rw [show escCharL c
                        = ['\\', 'u', '0', '0', hexDigitChar (c.toNat / 16),
                           hexDigitChar (c.toNat % 16)] from by
                        rw [escCharL, if_neg h1, if_neg h2, if_neg h3, if_neg h4, if_neg h5,
                          if_neg h6, if_neg h7, if_pos h8],
                      List.cons_append, List.cons_append, List.cons_append,
                      List.cons_append, List.cons_append, List.cons_append,
                      List.nil_append, parseStrAux.eq_def]
                    have e16 : ∀ k, k < 16 → hexVal (hexDigitChar k) = some k := by decide
                    have hv1 : hexVal (hexDigitChar (c.toNat / 16)) = some (c.toNat / 16) :=
                      e16 _ (by omega)
                    have hv2 : hexVal (hexDigitChar (c.toNat % 16)) = some (c.toNat % 16) :=
                      e16 _ (by omega)
                    have hc : Char.ofNat c.toNat = c := Char.ofNat_toNat c
                    simp [show hexVal '0' = some 0 from by decide, hv1, hv2, ih]
                    rw [show c.toNat / 16 * 16 + c.toNat % 16 = c.toNat from by omega]
                    exact hc
                  · rw [show escCharL c = [c] from by
                        rw [escCharL, if_neg h1, if_neg h2, if_neg h3, if_neg h4, if_neg h5,
                          if_neg h6, if_neg h7, if_neg h8],
                      List.cons_append, List.nil_append, parseStrAux.eq_def]
                    simp [ih, h1, h2]

/-- Helper: every character `natDigits` produces is a decimal digit. -/
theorem natDigits_all_digits (n : Nat) : ∀ c ∈ natDigits n, isDigitChar c = true := by
  induction n using Nat.strong_induction_on with
  | _ n ih =>
    rw [natDigits]
    have e10 : ∀ k, k < 10 → isDigitChar (hexDigitChar k) = true := by decide
    split_ifs with h
    · intro c hc
      simp at hc
      subst hc
      exact e10 n h
    · intro c hc
      rcases List.mem_append.mp hc with hc | hc
      · exact ih (n / 10) (Nat.div_lt_self (by omega) (by omega)) c hc
      · simp at hc
        subst hc
        exact e10 (n % 10) (by omega)

/-- Helper: `natDigits` never returns the empty list. -/
theorem natDigits_ne_nil (n : Nat) : natDigits n ≠ [] := by
  rw [natDigits]
  split_ifs <;> simp

/-- Helper: the decimal digits of `n` evaluate back to `n`. -/
theorem digitsToNat_natDigits (n : Nat) : digitsToNat (natDigits n) = n := by
  induction n using Nat.strong_induction_on with
  | _ n ih =>
    rw [natDigits]
    have e10 : ∀ k, k < 10 → (hexDigitChar k).toNat = 48 + k := by decide
    split_ifs with h
    · simp [digitsToNat, e10 n h]
    · rw [digitsToNat, List.foldl_append]
      have := ih (n / 10) (Nat.div_lt_self (by omega) (by omega))
      rw [digitsToNat] at this
      simp [this, e10 (n % 10) (by omega)]
      omega

/-- Helper: `takeWhile` runs through a block where the predicate holds. -/
theorem takeWhile_append_all {α : Type} (p : α → Bool) (l1 l2 : List α)
    (h : ∀ c ∈ l1, p c = true) :
    (l1 ++ l2).takeWhile p = l1 ++ l2.takeWhile p := by
  induction l1 with
  | nil => simp
  | cons a as ih =>
    rw [List.cons_append, List.takeWhile_cons, if_pos (h a (by simp)), ih
      (fun c hc => h c (by simp [hc])), List.cons_append]

/-- Helper: skipping whitespace stops at a non-whitespace head. -/
theorem skipWs_cons_not (c : Char) (l : List Char) (h : isJsWsChar c = false) :
    skipWs (c :: l) = c :: l := by simp [skipWs, h]

/-- Helper: skipping whitespace passes a whitespace head. -/
theorem skipWs_cons_ws (c : Char) (l : List Char) (h : isJsWsChar c = true) :
    skipWs (c :: l) = skipWs l := by simp [skipWs, h]

/-- Helper: skipping whitespace passes a block of spaces. -/
theorem skipWs_spaces (m : Nat) (l : List Char) : skipWs (spacesL m ++ l) = skipWs l := by
  induction m with
  | zero => rfl
  | succ k ih =>
    rw [spacesL, List.replicate_succ, List.cons_append,
      skipWs_cons_ws _ _ (by decide), ← spacesL, ih]

/-- Helper: skipping whitespace is idempotent. -/
theorem skipWs_idem (l : List Char) : skipWs (skipWs l) = skipWs l := by
  induction l with
  | nil => rfl
  | cons c cs ih =>
    cases h : isJsWsChar c with
    | true => rw [skipWs_cons_ws _ _ h, ih]
    | false => rw [skipWs_cons_not _ _ h, skipWs_cons_not _ _ h]

/-- Helper: parsing is insensitive to leading whitespace. -/
theorem parseVal_skipWs (f : Nat) (cs : List Char) :
    parseVal f cs = parseVal f (skipWs cs) := by
  cases f with
  | zero => rfl
  | succ n => rw [parseVal.eq_2, parseVal.eq_2, skipWs_idem]

/-- Helper: a digit character is none of the parser's dispatch characters and
is not whitespace. -/
theorem isDigitChar_facts (c : Char) (h : isDigitChar c = true) :
    isJsWsChar c = false ∧ c ≠ '"' ∧ c ≠ '[' ∧ c ≠ '{' ∧ c ≠ 't' ∧ c ≠ 'f' ∧ c ≠ 'n'
      ∧ c ≠ ']' ∧ c ≠ '}' ∧ c ≠ ',' := by
  rw [isDigitChar, decide_eq_true_eq] at h
  refine ⟨?_, ?_, ?_, ?_, ?_, ?_, ?_, ?_, ?_, ?_⟩
  · cases hw : isJsWsChar c with
    | false => rfl
    | true =>
      exfalso
      simp only [isJsWsChar, Bool.or_eq_true, beq_iff_eq] at hw
      rcases hw with ((hw | hw) | hw) | hw <;> (subst hw; revert h; decide)
  all_goals (intro hEq; subst hEq; revert h; decide)

/-- Characters with which no `stringifyL` output begins. -/
theorem stringifyL_head (d : Nat) (v : Json) :
    ∃ c cs, stringifyL d v = c :: cs ∧ isJsWsChar c = false ∧ c ≠ ']' ∧ c ≠ '}' := by
  cases v with
  | null => exact ⟨'n', _, by rw [stringifyL]; rfl, by decide, by decide, by decide⟩
  | bool b =>
    cases b with
    | true => exact ⟨'t', _, by rw [stringifyL]; rfl, by decide, by decide, by decide⟩
    | false => exact ⟨'f', _, by rw [stringifyL]; rfl, by decide, by decide, by decide⟩
  | num n =>
    obtain ⟨c, cs, hc⟩ := List.exists_cons_of_ne_nil (natDigits_ne_nil n)
    have hd : isDigitChar c = true := natDigits_all_digits n c (by rw [hc]; simp)
    obtain ⟨f1, _, _, _, _, _, _, f8, f9, _⟩ := isDigitChar_facts c hd
    exact ⟨c, cs, by rw [stringifyL, hc], f1, f8, f9⟩
  | str s => exact ⟨'"', _, by rw [stringifyL, quoteL], by decide, by decide, by decide⟩
  | arr xs =>
    cases xs with
    | nil => exact ⟨'[', _, by rw [stringifyL], by decide, by decide, by decide⟩
    | cons x tl => exact ⟨'[', _, by rw [stringifyL], by decide, by decide, by decide⟩
  | obj ms =>
    cases ms with
    | nil => exact ⟨'{', _, by rw [stringifyL], by decide, by decide, by decide⟩
    | cons m tl => exact ⟨'{', _, by rw [stringifyL], by decide, by decide, by decide⟩

mutual

/-- Fuel needed by `parseVal` to parse a value. -/
def jneed : Json → Nat
  | .null => 1
  | .bool _ => 1
  | .num _ => 1
  | .str _ => 1
  | .arr l => 1 + jneedItems l
  | .obj l => 1 + jneedMembers l

/-- Fuel needed by `parseItems`. -/
def jneedItems : List Json → Nat
  | [] => 0
  | x :: xs => 1 + jneed x + jneedItems xs

/-- Fuel needed by `parseMembers`. -/
def jneedMembers : List (String × Json) → Nat
  | [] => 0
  | (_, v) :: ms => 1 + jneed v + jneedMembers ms

end

/-- Every value needs at least one unit of fuel. -/
theorem jneed_pos (v : Json) : 1 ≤ jneed v := by
  cases v <;> simp [jneed]

mutual

/-- The fuel needed for a value is at most the length of its printed form. -/
theorem jneed_le_len (d : Nat) (v : Json) : jneed v ≤ (stringifyL d v).length := by
  cases v with
  | null => simp [jneed, stringifyL, nullLit]
  | bool b => cases b <;> simp [jneed, stringifyL, trueLit, falseLit]
  | num n =>
    have h := List.length_pos.mpr (natDigits_ne_nil n)
    simp only [jneed, stringifyL]
    omega
  | str s => simp [jneed, stringifyL, quoteL]
  | arr xs =>
    cases xs with
    | nil => simp [jneed, jneedItems, stringifyL]
    | cons x tl =>
      have h := jneedItems_le_len (d + 1) x tl
      simp only [jneed, stringifyL, List.length_cons, List.length_append, spacesL,
        List.length_replicate]
      omega
  | obj ms =>
    cases ms with
    | nil => simp [jneed, jneedMembers, stringifyL]
    | cons m tl =>
      obtain ⟨k, v⟩ := m
      have h := jneedMembers_le_len (d + 1) k v tl
      simp only [jneed, stringifyL, List.length_cons, List.length_append, spacesL,
        List.length_replicate]
      omega
termination_by sizeOf v

/-- The fuel needed for array items is at most their printed length plus one. -/
theorem jneedItems_le_len (d : Nat) (x : Json) (xs : List Json) :
    jneedItems (x :: xs) ≤ (itemsEnc d (x :: xs)).length + 1 := by
  cases xs with
  | nil =>
    have h := jneed_le_len d x
    simp only [jneedItems, itemsEnc, List.length_cons, List.length_append, spacesL,
      List.length_replicate]
    omega
  | cons y ys =>
    have h1 := jneed_le_len d x
    have h2 := jneedItems_le_len d y ys
    simp only [jneedItems, itemsEnc, List.length_cons, List.length_append, spacesL,
      List.length_replicate] at h2 ⊢
    omega
termination_by sizeOf x + sizeOf xs

/-- The fuel needed for object members is at most their printed length plus
one. -/
theorem jneedMembers_le_len (d : Nat) (k : String) (v : Json)
    (ms : List (String × Json)) :
    jneedMembers ((k, v) :: ms) ≤ (membersEnc d ((k, v) :: ms)).length + 1 := by
  cases ms with
  | nil =>
    have h := jneed_le_len d v
    simp only [jneedMembers, membersEnc, List.length_cons, List.length_append, spacesL,
      List.length_replicate]
    omega
  | cons m tl =>
    obtain ⟨k2, v2⟩ := m
    have h1 := jneed_le_len d v
    have h2 := jneedMembers_le_len d k2 v2 tl
    simp only [jneedMembers, membersEnc, List.length_cons, List.length_append, spacesL,
      List.length_replicate] at h2 ⊢
    omega
termination_by sizeOf v + sizeOf ms

end

/-- Input continuations that cannot extend a number literal. -/
def noDigitHead : List Char → Prop
  | [] => True
  | c :: _ => isDigitChar c = false

/-- Helper: `takeWhile` stops immediately on such a continuation. -/
theorem takeWhile_noDigit (rest : List Char) (h : noDigitHead rest) :
    rest.takeWhile isDigitChar = [] := by
  cases rest with
  | nil => rfl
  | cons c cs =>
    simp only [noDigitHead] at h
    rw [List.takeWhile_cons, if_neg (by simp [h])]

/-- Helper: `dropWhile` keeps such a continuation whole. -/
theorem dropWhile_noDigit (rest : List Char) (h : noDigitHead rest) :
    rest.dropWhile isDigitChar = rest := by
  cases rest with
  | nil => rfl
  | cons c cs =>
    simp only [noDigitHead] at h
    rw [List.dropWhile_cons, if_neg (by simp [h])]

/-- Helper: printed values never start with whitespace. -/
theorem skipWs_stringify (d : Nat) (v : Json) (Q : List Char) :
    skipWs (stringifyL d v ++ Q) = stringifyL d v ++ Q := by
  obtain ⟨c1, cs1, hS, hw, _, _⟩ := stringifyL_head d v
  rw [hS, List.cons_append, skipWs_cons_not _ _ hw]

/-- Separator after an array element: nothing after the last element, a comma
before every further one. -/
def itemsSep (d : Nat) : List Json → List Char
  | [] => []
  | y :: ys => ',' :: itemsEnc d (y :: ys)

/-- Uniform shape of a non-empty encoded element list. -/
theorem itemsEnc_cons (d : Nat) (x : Json) (xs : List Json) :
    itemsEnc d (x :: xs)
      = '\n' :: (spacesL (2 * d) ++ (stringifyL d x ++ itemsSep d xs)) := by
  cases xs with
  | nil => simp [itemsEnc, itemsSep]
  | cons y ys => simp [itemsEnc, itemsSep, List.append_assoc]

/-- Separator after an object member. -/
def membersSep (d : Nat) : List (String × Json) → List Char
  | [] => []
  | m :: ms => ',' :: membersEnc d (m :: ms)

/-- Uniform shape of a non-empty encoded member list. -/
theorem membersEnc_cons (d : Nat) (k : String) (v : Json) (ms : List (String × Json)) :
    membersEnc d ((k, v) :: ms)
      = '\n' :: (spacesL (2 * d) ++ (quoteL k.data
          ++ (':' :: ' ' :: (stringifyL d v ++ membersSep d ms)))) := by
  cases ms with
  | nil => simp [membersEnc, membersSep]
  | cons m ms2 => simp [membersEnc, membersSep, List.append_assoc]

/-- Helper: skipping whitespace over an encoded element list reaches the
first element's printed form. -/
theorem skipWs_itemsEnc (d : Nat) (x : Json) (xs : List Json) (Q : List Char) :
    skipWs (itemsEnc d (x :: xs) ++ Q) = stringifyL d x ++ (itemsSep d xs ++ Q) := by
  rw [itemsEnc_cons, List.cons_append, skipWs_cons_ws _ _ (by decide),
    List.append_assoc, skipWs_spaces, List.append_assoc, skipWs_stringify]

/-- Helper: skipping whitespace over an encoded member list reaches the first
key's opening quote. -/
theorem skipWs_membersEnc (d : Nat) (k : String) (v : Json)
    (ms : List (String × Json)) (Q : List Char) :
    skipWs (membersEnc d ((k, v) :: ms) ++ Q)
      = '"' :: (escapeL k.data ++ ('"' :: (':' :: ' '
          :: (stringifyL d v ++ (membersSep d ms ++ Q))))) := by
  rw [membersEnc_cons]
  simp only [quoteL, List.cons_append, List.append_assoc, List.singleton_append,
    List.nil_append]
  rw [skipWs_cons_ws _ _ (by decide), skipWs_spaces, skipWs_cons_not _ _ (by decide)]

/-- Soundness of the parser against the printer, by induction on fuel: with
enough fuel, parsing the printed form of a value (or of a non-empty element
or member list together with its closing bracket) succeeds and returns
exactly that value and the unconsumed input. -/
theorem parse_sound (n : Nat) :
    (∀ v d rest, jneed v ≤ n → noDigitHead rest →
      parseVal n (stringifyL d v ++ rest) = some (v, rest))
    ∧ (∀ x xs d m rest, jneedItems (x :: xs) ≤ n →
        parseItems n (itemsEnc d (x :: xs) ++ '\n' :: (spacesL m ++ ']' :: rest))
          = some (x :: xs, rest))
    ∧ (∀ k v ms d m rest, jneedMembers ((k, v) :: ms) ≤ n →
        parseMembers n (membersEnc d ((k, v) :: ms) ++ '\n' :: (spacesL m ++ '}' :: rest))
          = some ((k, v) :: ms, rest)) := by
  induction n with
  | zero =>
    refine ⟨fun v d rest hne _ => ?_, fun x xs d m rest hne => ?_,
      fun k v ms d m rest hne => ?_⟩
    · have := jneed_pos v; omega
    · simp only [jneedItems] at hne; omega
    · simp only [jneedMembers] at hne; omega
  | succ n ih =>
    obtain ⟨IH1, IH2, IH3⟩ := ih
    refine ⟨?_, ?_, ?_⟩
    · intro v d rest hneed hnd
      cases v with
      | null =>
        rw [show stringifyL d Json.null = ['n', 'u', 'l', 'l'] from by
            rw [stringifyL]; rfl,
          show (['n', 'u', 'l', 'l'] : List Char) ++ rest = 'n' :: 'u' :: 'l' :: 'l' :: rest
            from rfl,
          parseVal.eq_2, skipWs_cons_not _ _ (by decide)]
        simp
      | bool b =>
        cases b with
        | true =>
          rw [show stringifyL d (Json.bool true) = ['t', 'r', 'u', 'e'] from by
              rw [stringifyL]; rfl,
            show (['t', 'r', 'u', 'e'] : List Char) ++ rest
               = 't' :: 'r' :: 'u' :: 'e' :: rest from rfl,
            parseVal.eq_2, skipWs_cons_not _ _ (by decide)]
          simp
        | false =>
          rw [show stringifyL d (Json.bool false) = ['f', 'a', 'l', 's', 'e'] from by
              rw [stringifyL]; rfl,
            show (['f', 'a', 'l', 's', 'e'] : List Char) ++ rest
               = 'f' :: 'a' :: 'l' :: 's' :: 'e' :: rest from rfl,
            parseVal.eq_2, skipWs_cons_not _ _ (by decide)]
          simp
      | num n0 =>
        obtain ⟨c, cs, hc⟩ := List.exists_cons_of_ne_nil (natDigits_ne_nil n0)
        have hdig : isDigitChar c = true := natDigits_all_digits n0 c (by rw [hc]; simp)
        obtain ⟨f1, f2, f3, f4, f5, f6, f7, _, _, _⟩ := isDigitChar_facts c hdig
        have hall : ∀ ch ∈ c :: cs, isDigitChar ch = true := by
          rw [← hc]; exact natDigits_all_digits n0
        rw [show stringifyL d (Json.num n0) = natDigits n0 from by rw [stringifyL], hc,
          List.cons_append, parseVal.eq_2, skipWs_cons_not _ _ f1]
        simp only [if_neg f2, if_neg f3, if_neg f4, if_neg f5, if_neg f6, if_neg f7,
          if_pos hdig]
        simp only [← List.cons_append]
        rw [takeWhile_append_all _ _ _ hall, takeWhile_noDigit rest hnd, List.append_nil,
          dropWhile_append_of_all _ _ _ hall, dropWhile_noDigit rest hnd, ← hc,
          digitsToNat_natDigits]
      | str s =>
        rw [show stringifyL d (Json.str s) = quoteL s.data from by rw [stringifyL]]
        simp only [quoteL, List.cons_append, List.append_assoc, List.singleton_append]
        rw [parseVal.eq_2, skipWs_cons_not _ _ (by decide)]
        simp [parseStrAux_escape]
      | arr xs =>
        cases xs with
        | nil =>
          rw [show stringifyL d (Json.arr []) = ['[', ']'] from by rw [stringifyL],
            show (['[', ']'] : List Char) ++ rest = '[' :: ']' :: rest from rfl,
            parseVal.eq_2, skipWs_cons_not _ _ (by decide)]
          simp [skipWs_cons_not ']' rest (by decide)]
        | cons x tl =>
          have hneed2 : jneedItems (x :: tl) ≤ n := by
            simp only [jneed] at hneed; omega
          rw [show stringifyL d (Json.arr (x :: tl))
              = '[' :: (itemsEnc (d + 1) (x :: tl) ++ ('\n' :: (spacesL (2 * d) ++ [']'])))
              from by rw [stringifyL]]
          simp only [List.cons_append, List.append_assoc, List.singleton_append]
          rw [parseVal.eq_2, skipWs_cons_not _ _ (by decide)]
          obtain ⟨c1, cs1, hS, hw1, hne1, hne2⟩ := stringifyL_head (d + 1) x
          have hhead : (skipWs (itemsEnc (d + 1) (x :: tl)
              ++ '\n' :: (spacesL (2 * d) ++ ']' :: rest))).head? ≠ some ']' := by
            rw [skipWs_itemsEnc, hS, List.cons_append]
            simp [hne1]
          have hitems := IH2 x tl (d + 1) (2 * d) rest hneed2
          simp [hhead, hitems]
      | obj ms =>
        cases ms with
        | nil =>
          rw [show stringifyL d (Json.obj []) = ['{', '}'] from by rw [stringifyL],
            show (['{', '}'] : List Char) ++ rest = '{' :: '}' :: rest from rfl,
            parseVal.eq_2, skipWs_cons_not _ _ (by decide)]
          simp [skipWs_cons_not '}' rest (by decide)]
        | cons mm tl =>
          obtain ⟨k, v⟩ := mm
          have hneed2 : jneedMembers ((k, v) :: tl) ≤ n := by
            simp only [jneed] at hneed; omega
          rw [show stringifyL d (Json.obj ((k, v) :: tl))
              = '{' :: (membersEnc (d + 1) ((k, v) :: tl)
                  ++ ('\n' :: (spacesL (2 * d) ++ ['}'])))
              from by rw [stringifyL]]
          simp only [List.cons_append, List.append_assoc, List.singleton_append]
          rw [parseVal.eq_2, skipWs_cons_not _ _ (by decide)]
          have hhead : (skipWs (membersEnc (d + 1) ((k, v) :: tl)
              ++ '\n' :: (spacesL (2 * d) ++ '}' :: rest))).head? ≠ some '}' := by
            rw [skipWs_membersEnc]
            simp
          have hmem := IH3 k v tl (d + 1) (2 * d) rest hneed2
          simp [hhead, hmem]
    · intro x xs d m rest hneed
      have hx : jneed x ≤ n := by simp only [jneedItems] at hneed; omega
      rw [parseItems.eq_2, itemsEnc_cons]
      cases xs with
      | nil =>
        rw [show itemsSep d ([] : List Json) = [] from rfl]
        have hnd2 : noDigitHead (('\n' :: (spacesL m ++ ']' :: rest)) : List Char) := by
          simp [noDigitHead, isDigitChar]
        have hv : parseVal n ('\n' :: (spacesL (2 * d)
            ++ (stringifyL d x ++ ('\n' :: (spacesL m ++ ']' :: rest)))))
            = some (x, '\n' :: (spacesL m ++ ']' :: rest)) := by
          rw [parseVal_skipWs, skipWs_cons_ws _ _ (by decide), skipWs_spaces,
            skipWs_stringify]
          exact IH1 x d _ hx hnd2
        simp only [List.cons_append, List.append_assoc, List.nil_append, List.append_nil]
          at hv ⊢
        rw [hv]
        have hR : skipWs ('\n' :: (spacesL m ++ ']' :: rest)) = ']' :: rest := by
          rw [skipWs_cons_ws _ _ (by decide), skipWs_spaces,
            skipWs_cons_not _ _ (by decide)]
        simp [hR]
      | cons y ys =>
        have hys : jneedItems (y :: ys) ≤ n := by
          simp only [jneedItems] at hneed ⊢; omega
        rw [show itemsSep d (y :: ys) = ',' :: itemsEnc d (y :: ys) from rfl]
        have hnd2 : noDigitHead ((',' :: (itemsEnc d (y :: ys)
            ++ '\n' :: (spacesL m ++ ']' :: rest))) : List Char) := by
          simp [noDigitHead, isDigitChar]
        have hv : parseVal n ('\n' :: (spacesL (2 * d) ++ (stringifyL d x
            ++ (',' :: (itemsEnc d (y :: ys) ++ '\n' :: (spacesL m ++ ']' :: rest))))))
            = some (x, ',' :: (itemsEnc d (y :: ys) ++ '\n' :: (spacesL m ++ ']' :: rest))) := by
          rw [parseVal_skipWs, skipWs_cons_ws _ _ (by decide), skipWs_spaces,
            skipWs_stringify]
          exact IH1 x d _ hx hnd2
        simp only [List.cons_append, List.append_assoc, List.nil_append, List.append_nil]
          at hv ⊢
        rw [hv]
        have hR : skipWs (',' :: (itemsEnc d (y :: ys)
            ++ '\n' :: (spacesL m ++ ']' :: rest)))
            = ',' :: (itemsEnc d (y :: ys) ++ '\n' :: (spacesL m ++ ']' :: rest)) :=
          skipWs_cons_not _ _ (by decide)
        simp [hR, IH2 y ys d m rest hys]
    · intro k v ms d m rest hneed
      have hv' : jneed v ≤ n := by simp only [jneedMembers] at hneed; omega
      rw [parseMembers.eq_2, skipWs_membersEnc]
      cases ms with
      | nil =>
        rw [show membersSep d ([] : List (String × Json)) = [] from rfl]
        have hnd3 : noDigitHead (('\n' :: (spacesL m ++ '}' :: rest)) : List Char) := by
          simp [noDigitHead, isDigitChar]
        have hstr := parseStrAux_escape k.data
          (':' :: ' ' :: (stringifyL d v ++ ('\n' :: (spacesL m ++ '}' :: rest))))
        have hpv : parseVal n (' ' :: (stringifyL d v
            ++ ('\n' :: (spacesL m ++ '}' :: rest))))
            = some (v, '\n' :: (spacesL m ++ '}' :: rest)) := by
          rw [parseVal_skipWs, skipWs_cons_ws _ _ (by decide), skipWs_stringify]
          exact IH1 v d _ hv' hnd3
        have hR : skipWs ('\n' :: (spacesL m ++ '}' :: rest)) = '}' :: rest := by
          rw [skipWs_cons_ws _ _ (by decide), skipWs_spaces,
            skipWs_cons_not _ _ (by decide)]
        have hcolon : skipWs (':' :: ' ' :: (stringifyL d v
            ++ ('\n' :: (spacesL m ++ '}' :: rest))))
            = ':' :: ' ' :: (stringifyL d v ++ ('\n' :: (spacesL m ++ '}' :: rest))) :=
          skipWs_cons_not _ _ (by decide)
        simp only [List.cons_append, List.append_assoc, List.nil_append, List.append_nil]
          at hstr hpv hR hcolon ⊢
        simp [hstr, hcolon, hpv, hR]
      | cons mm mms =>
        obtain ⟨k2, v2⟩ := mm
        have hms : jneedMembers ((k2, v2) :: mms) ≤ n := by
          simp only [jneedMembers] at hneed ⊢; omega
        rw [show membersSep d ((k2, v2) :: mms) = ',' :: membersEnc d ((k2, v2) :: mms)
          from rfl]
        have hnd3 : noDigitHead ((',' :: (membersEnc d ((k2, v2) :: mms)
            ++ '\n' :: (spacesL m ++ '}' :: rest))) : List Char) := by
          simp [noDigitHead, isDigitChar]
        have hstr := parseStrAux_escape k.data
          (':' :: ' ' :: (stringifyL d v ++ (',' :: (membersEnc d ((k2, v2) :: mms)
            ++ '\n' :: (spacesL m ++ '}' :: rest)))))
        have hpv : parseVal n (' ' :: (stringifyL d v
            ++ (',' :: (membersEnc d ((k2, v2) :: mms)
              ++ '\n' :: (spacesL m ++ '}' :: rest)))))
            = some (v, ',' :: (membersEnc d ((k2, v2) :: mms)
              ++ '\n' :: (spacesL m ++ '}' :: rest))) := by
          rw [parseVal_skipWs, skipWs_cons_ws _ _ (by decide), skipWs_stringify]
          exact IH1 v d _ hv' hnd3
        have hcomma : skipWs (',' :: (membersEnc d ((k2, v2) :: mms)
            ++ '\n' :: (spacesL m ++ '}' :: rest)))
            = ',' :: (membersEnc d ((k2, v2) :: mms)
              ++ '\n' :: (spacesL m ++ '}' :: rest)) :=
          skipWs_cons_not _ _ (by decide)
        have hcolon : skipWs (':' :: ' ' :: (stringifyL d v
            ++ (',' :: (membersEnc d ((k2, v2) :: mms)
              ++ '\n' :: (spacesL m ++ '}' :: rest)))))
            = ':' :: ' ' :: (stringifyL d v ++ (',' :: (membersEnc d ((k2, v2) :: mms)
              ++ '\n' :: (spacesL m ++ '}' :: rest)))) :=
          skipWs_cons_not _ _ (by decide)
        simp only [List.cons_append, List.append_assoc, List.nil_append, List.append_nil]
          at hstr hpv hcomma hcolon ⊢
        simp [hstr, hcolon, hpv, hcomma, IH3 k2 v2 mms d m rest hms]

/-- Round-trip of the JSON model: parsing the pretty-printed form of any
value yields the value back. -/
theorem jsonParse_jsonStringify (v : Json) : jsonParse (jsonStringify v) = some v := by
  have hlen := jneed_le_len 0 v
  have h := (parse_sound ((stringifyL 0 v).length + 1)).1 v 0 [] (by omega) trivial
  rw [List.append_nil] at h
  simp only [jsonParse, jsonStringify]
  rw [h]
  simp [skipWs]

/-- C7: config round-trip.  For every config record with the persisted fields
(projectName, githubUsername, backupBranch, autoIgnoreFiles,
maxBackupAttempts, createdAt, version), writing it with `updateConfig`
(`JSON.stringify(-, null, 2)`) and reading the file back with `readConfig`
(`JSON.parse`) yields a structurally identical object. -/
theorem config_roundtrip (c : BackupConfig) :
    readConfig (updateConfig (configToJson c)) = some (configToJson c) := by
  show jsonParse (jsonStringify (configToJson c)) = some (configToJson c)
  exact jsonParse_jsonStringify (configToJson c)
